import Mathlib

/-!
Verification of the natural-language specification of go-pogo/buildinfo
against a shallow embedding of its Go source.

The embedding covers:
* the current `BuildInfo` struct (Version / Revision / Time / Extra) with its
  methods `version`, `GoVersion`, `WithExtra`, `Map`, `String`, `writeJson`,
  `MarshalJSON`, `UnmarshalJSON` (buildinfo.go);
* the historical `BuildInfo` variant with `IsDummy` and its dummy constants;
* the HTTP handler (`HTTPHandler`);
* the generator's git collaborator (`CurrentTag`, `cutTag`).

Modelling conventions:
* Go `map[string]string` is modelled as an association list in insertion
  order with unique keys (`NoDupKeys` states the map representation
  invariant);
* `time.Time` is modelled by its wall-clock fields plus a zone offset in
  seconds (`GoTime`); `Format(time.RFC3339)` and `Parse(time.RFC3339)` are
  embedded for whole-second timestamps (Go additionally accepts fractional
  seconds when parsing, which this development does not need);
* `runtime.Version()` is an ambient constant of the host and is threaded
  through as an explicit parameter `rt`;
* `encoding/json.Unmarshal` into `map[string]string` is embedded as a
  recursive-descent reader of flat string-valued objects without escape
  sequences (`parseStrMap`), which is the fragment exercised here;
* a Go `panic` and a returned `error` are both modelled by an absent result
  (`Option`/`Except`).
-/

/-! ## Characters, whitespace and substrings -/

/-- The character for decimal digit `d` (faithful for `d < 10`). -/
def digCh (d : Nat) : Char := Char.ofNat (48 + d)

/-- Whether `c` is an ASCII decimal digit. -/
def isDigCh (c : Char) : Bool := 48 ≤ c.toNat && c.toNat ≤ 57

/-- Numeric value of an ASCII digit character. -/
def digVal (c : Char) : Nat := c.toNat - 48

/-- Go's `unicode.IsSpace`: the Unicode White_Space property, i.e. `'\t'`,
`'\n'`, `'\v'`, `'\f'`, `'\r'`, `' '`, U+0085, U+00A0, U+1680,
U+2000..U+200A, U+2028, U+2029, U+202F, U+205F and U+3000. -/
def isGoSpace (c : Char) : Bool :=
  c = ' ' || c = '\t' || c = '\n' || c = '\x0b' || c = '\x0c' || c = '\r' ||
  c = '\u0085' || c = '\u00A0' || c = '\u1680' ||
  (0x2000 ≤ c.toNat && c.toNat ≤ 0x200A) ||
  c = '\u2028' || c = '\u2029' || c = '\u202F' || c = '\u205F' || c = '\u3000'

/-- Go's `strings.TrimSpace`: drop leading and trailing whitespace. -/
def goTrim (s : String) : String :=
  ⟨((s.data.dropWhile isGoSpace).reverse.dropWhile isGoSpace).reverse⟩

/-- Whether `p` is a prefix of `l`. -/
def listHasPre (p l : List Char) : Bool :=
  match p, l with
  | [], _ => true
  | _ :: _, [] => false
  | a :: as, b :: bs => a = b && listHasPre as bs

/-- Whether `needle` occurs as a contiguous sublist of `hay`. -/
def hasSubCh (needle : List Char) : List Char → Bool
  | [] => listHasPre needle []
  | c :: rest => listHasPre needle (c :: rest) || hasSubCh needle rest

/-- Go's `bytes.Contains` on strings. -/
def hasSubstr (hay needle : String) : Bool := hasSubCh needle.data hay.data

/-! ## Association lists modelling Go maps -/

/-- Go map assignment `m[k] = v` on the association-list model: replace the
binding of `k` when present, else append it. -/
def updateAssoc : List (String × String) → String → String → List (String × String)
  | [], k, v => [(k, v)]
  | (k0, v0) :: t, k, v =>
    if k0 = k then (k, v) :: t else (k0, v0) :: updateAssoc t k v

/-- Go map read `m[k]` on the association-list model. -/
def lookupAssoc : List (String × String) → String → Option String
  | [], _ => none
  | (k0, v0) :: t, k => if k0 = k then some v0 else lookupAssoc t k

/-- Representation invariant of the association-list model of a Go map:
keys are pairwise distinct. -/
def NoDupKeys (l : List (String × String)) : Prop := (l.map Prod.fst).Nodup

instance (l : List (String × String)) : Decidable (NoDupKeys l) := by
  unfold NoDupKeys; infer_instance

/-- Building a Go map from decoded members: later duplicate keys overwrite
earlier ones; first-occurrence insertion order is kept. -/
def dedupKeepLast (l : List (String × String)) : List (String × String) :=
  l.foldl (fun acc kv => updateAssoc acc kv.1 kv.2) []

/-! ## `time.Time` (wall clock plus zone offset) -/

/-- Wall-clock model of Go's `time.Time`: calendar fields plus the zone
offset in seconds east of UTC. -/
structure GoTime where
  year : Nat
  month : Nat
  day : Nat
  hour : Nat
  minute : Nat
  second : Nat
  offset : Int
  deriving DecidableEq

/-- The zero `time.Time`: January 1, year 1, 00:00:00 UTC. -/
def GoTime.zeroTime : GoTime := ⟨1, 1, 1, 0, 0, 0, 0⟩

/-- Go's `Time.IsZero`. -/
def GoTime.IsZero (t : GoTime) : Bool := t = GoTime.zeroTime

/-- Gregorian leap-year rule (Go `time.isLeap`). -/
def isLeap (y : Nat) : Bool := y % 4 = 0 && (y % 100 ≠ 0 || y % 400 = 0)

/-- Days in a month (Go `time.daysIn`). -/
def daysIn (y mo : Nat) : Nat :=
  if mo = 2 then (if isLeap y then 29 else 28)
  else if mo = 4 ∨ mo = 6 ∨ mo = 9 ∨ mo = 11 then 30
  else 31

/-- Two-digit zero-padded decimal (faithful for `n < 100`). -/
def pad2 (n : Nat) : List Char := [digCh (n / 10), digCh (n % 10)]

/-- Four-digit zero-padded decimal (faithful for `n < 10000`). -/
def pad4 (n : Nat) : List Char :=
  [digCh (n / 1000), digCh (n / 100 % 10), digCh (n / 10 % 10), digCh (n % 10)]

/-- The `Z07:00` part of Go's RFC 3339 layout: `Z` for UTC, otherwise a
signed `hh:mm` offset built from whole minutes. -/
def offChars (off : Int) : List Char :=
  if off = 0 then ['Z']
  else
    let total : Nat := off.natAbs / 60
    (if off < 0 then '-' else '+') :: pad2 (total / 60) ++ ':' :: pad2 (total % 60)

/-- Character stream of Go's `Time.Format(time.RFC3339)`. -/
def fmtChars (t : GoTime) : List Char :=
  pad4 t.year ++ '-' :: pad2 t.month ++ '-' :: pad2 t.day ++
  'T' :: pad2 t.hour ++ ':' :: pad2 t.minute ++ ':' :: pad2 t.second ++
  offChars t.offset

/-- Go's `Time.Format(time.RFC3339)`. -/
def formatRFC3339 (t : GoTime) : String := ⟨fmtChars t⟩

/-- Read exactly two decimal digits. -/
def parse2 : List Char → Option (Nat × List Char)
  | c1 :: c2 :: rest =>
    if isDigCh c1 && isDigCh c2 then some (10 * digVal c1 + digVal c2, rest)
    else none
  | _ => none

/-- Read exactly four decimal digits. -/
def parse4 : List Char → Option (Nat × List Char)
  | c1 :: c2 :: c3 :: c4 :: rest =>
    if isDigCh c1 && isDigCh c2 && isDigCh c3 && isDigCh c4 then
      some (1000 * digVal c1 + 100 * digVal c2 + 10 * digVal c3 + digVal c4, rest)
    else none
  | _ => none

/-- Consume one expected literal character. -/
def expectCh (c : Char) : List Char → Option (List Char)
  | d :: rest => if d = c then some rest else none
  | [] => none

/-- Read the RFC 3339 zone suffix up to end of input: `Z`, or a signed
`hh:mm` offset with `hh ≤ 23` and `mm ≤ 59`. -/
def parseOffset : List Char → Option Int
  | ['Z'] => some 0
  | c :: rest =>
    if c = '+' ∨ c = '-' then
      match parse2 rest with
      | some (oh, rest1) =>
        match rest1 with
        | ':' :: rest2 =>
          match parse2 rest2 with
          | some (om, rest3) =>
            if rest3 = [] ∧ oh ≤ 23 ∧ om ≤ 59 then
              some (if c = '-' then -(oh * 3600 + om * 60 : Int)
                    else (oh * 3600 + om * 60 : Int))
            else none
          | none => none
        | _ => none
      | none => none
    else none
  | [] => none

/-- Character-level body of Go's `time.Parse(time.RFC3339, ·)` for
whole-second timestamps, with Go's range validation. -/
def parseTimeChars (cs : List Char) : Option GoTime := do
  let (y, cs) ← parse4 cs
  let cs ← expectCh '-' cs
  let (mo, cs) ← parse2 cs
  let cs ← expectCh '-' cs
  let (d, cs) ← parse2 cs
  let cs ← expectCh 'T' cs
  let (h, cs) ← parse2 cs
  let cs ← expectCh ':' cs
  let (mi, cs) ← parse2 cs
  let cs ← expectCh ':' cs
  let (sec, cs) ← parse2 cs
  let off ← parseOffset cs
  if 1 ≤ mo ∧ mo ≤ 12 ∧ 1 ≤ d ∧ d ≤ daysIn y mo ∧ h ≤ 23 ∧ mi ≤ 59 ∧ sec ≤ 59 then
    pure ⟨y, mo, d, h, mi, sec, off⟩
  else none

/-- Go's `time.Parse(time.RFC3339, ·)` (whole-second fragment). -/
def parseRFC3339 (s : String) : Option GoTime := parseTimeChars s.data

/-- The RFC 3339-representable times: in-range calendar fields, a four-digit
year, and a whole-minute offset of at most 23:59 in magnitude. -/
def GoTime.Valid (t : GoTime) : Prop :=
  1 ≤ t.month ∧ t.month ≤ 12 ∧ 1 ≤ t.day ∧ t.day ≤ daysIn t.year t.month ∧
  t.hour ≤ 23 ∧ t.minute ≤ 59 ∧ t.second ≤ 59 ∧ t.year ≤ 9999 ∧
  t.offset % 60 = 0 ∧ t.offset.natAbs ≤ 86340

instance (t : GoTime) : Decidable t.Valid := by
  unfold GoTime.Valid; infer_instance

/-! ## The `BuildInfo` record (buildinfo.go, current variant) -/

/-- Reserved keys of buildinfo.go. -/
def keyVersion : String := "version"

/-- Reserved key for the toolchain version. -/
def keyGoversion : String := "goversion"

/-- Reserved key for the revision. -/
def keyRevision : String := "revision"

/-- Reserved key for the build time. -/
def keyTime : String := "time"

/-- `isReservedKey` of buildinfo.go. -/
def isReservedKey (key : String) : Bool :=
  key = keyVersion || key = keyGoversion || key = keyRevision || key = keyTime

/-- `EmptyVersion`: the default version string when no version is set. -/
def EmptyVersion : String := "0.0.0"

/-- The `BuildInfo` struct of buildinfo.go. `Extra` models the Go
`map[string]string` as an association list (see module docstring). -/
structure BuildInfo where
  goVersion : String := ""
  Version : String := ""
  Revision : String := ""
  Time : GoTime := GoTime.zeroTime
  Extra : List (String × String) := []
  deriving DecidableEq

/-- The zero `BuildInfo` value (a fresh record). -/
def freshBuildInfo : BuildInfo := {}

/-- The unexported `version()` method: surface `EmptyVersion` when the
stored version is empty. -/
def BuildInfo.version (bld : BuildInfo) : String :=
  if bld.Version = "" then EmptyVersion else bld.Version

/-- `GoVersion()`: the stored toolchain version, falling back to the host
runtime's version `rt` when unset (the Go method memoizes the fallback). -/
def BuildInfo.GoVersion (bld : BuildInfo) (rt : String) : String :=
  if bld.goVersion = "" then rt else bld.goVersion

/-- The unexported `withExtra`: Go map assignment into `Extra` (a nil map is
allocated on first use, which the empty association list already models). -/
def BuildInfo.withExtra (bld : BuildInfo) (key value : String) : BuildInfo :=
  { bld with Extra := updateAssoc bld.Extra key value }

/-- `WithExtra`: panics (modelled as `none`) on a reserved key, otherwise
adds the pair. -/
def BuildInfo.WithExtra (bld : BuildInfo) (key value : String) : Option BuildInfo :=
  if isReservedKey key then none else some (bld.withExtra key value)

/-- The `Extra` loop of `Map()`: assign each non-reserved entry into `m`. -/
def foldExtras (e m : List (String × String)) : List (String × String) :=
  e.foldl (fun m kv => if isReservedKey kv.1 then m else updateAssoc m kv.1 kv.2) m

/-- `Map()`: version and toolchain version always, revision and time when
non-empty/non-zero, then the non-reserved `Extra` entries. -/
def BuildInfo.Map (bld : BuildInfo) (rt : String) : List (String × String) :=
  let m := [(keyVersion, bld.version), (keyGoversion, bld.GoVersion rt)]
  let m := if bld.Revision ≠ "" then m ++ [(keyRevision, bld.Revision)] else m
  let m := if bld.Time.IsZero then m
           else m ++ [(keyTime, formatRFC3339 bld.Time)]
  foldExtras bld.Extra m

/-- The `String()` method of buildinfo.go. -/
def BuildInfo.string (bld : BuildInfo) : String :=
  if bld.Revision = "" ∧ bld.Time.IsZero then bld.version
  else
    let buf := bld.version
    let buf := if bld.Revision ≠ "" then buf ++ " " ++ bld.Revision else buf
    let buf := if bld.Time.IsZero then buf
               else buf ++ " (" ++ formatRFC3339 bld.Time ++ ")"
    buf

/-- The `Extra` tail of `writeJson`: each entry contributes
`","<key>":"<value>` between the surrounding quotes. -/
def extraChunk : List (String × String) → String
  | [] => ""
  | (k, v) :: rest => "\",\"" ++ k ++ "\":\"" ++ v ++ extraChunk rest

/-- `writeJson`: the hand-rolled JSON encoder of buildinfo.go. -/
def BuildInfo.writeJson (bld : BuildInfo) (rt : String) : String :=
  "\x7b\"version\":\"" ++ bld.version
  ++ (if bld.Revision ≠ "" then "\",\"revision\":\"" ++ bld.Revision else "")
  ++ (if bld.Time.IsZero then ""
      else "\",\"time\":\"" ++ formatRFC3339 bld.Time)
  ++ "\",\"goversion\":\"" ++ bld.GoVersion rt
  ++ extraChunk bld.Extra
  ++ "\"\x7d"

/-- `MarshalJSON`: `writeJson` into a fresh builder; never fails. -/
def BuildInfo.MarshalJSON (bld : BuildInfo) (rt : String) : String :=
  bld.writeJson rt

/-- One JSON member rendered as `"k":"v"`. -/
def renderPair (k v : String) : String := "\"" ++ k ++ "\":\"" ++ v ++ "\""

/-- Comma-joined JSON members. -/
def joinPairs : List (String × String) → String
  | [] => ""
  | [(k, v)] => renderPair k v
  | (k, v) :: rest => renderPair k v ++ "," ++ joinPairs rest

/-- A flat JSON object over the given members, in order. -/
def renderFlatObj (ps : List (String × String)) : String :=
  "\x7b" ++ joinPairs ps ++ "\x7d"

/-- The members `writeJson` emits, in emission order. -/
def jsonFields (bld : BuildInfo) (rt : String) : List (String × String) :=
  (keyVersion, bld.version)
  :: ((if bld.Revision ≠ "" then [(keyRevision, bld.Revision)] else [])
      ++ (if bld.Time.IsZero then []
          else [(keyTime, formatRFC3339 bld.Time)])
      ++ (keyGoversion, bld.GoVersion rt) :: bld.Extra)

/-! ## Decoding (`encoding/json` fragment and `UnmarshalJSON`) -/

/-- JSON inter-token whitespace. -/
def isJsonWs (c : Char) : Bool := c = ' ' || c = '\t' || c = '\n' || c = '\r'

/-- Skip JSON whitespace. -/
def skipWs (cs : List Char) : List Char := cs.dropWhile isJsonWs

/-- Scan a JSON string body up to its closing quote. Escape sequences and
control characters are rejected (the encoder under study never emits them). -/
def scanJString : List Char → Option (List Char × List Char)
  | [] => none
  | c :: rest =>
    if c = '"' then some ([], rest)
    else if c = '\\' then none
    else if c.toNat < 32 then none
    else (scanJString rest).map (fun sr => (c :: sr.1, sr.2))

/-- Read a JSON string including its opening quote. -/
def parseJString : List Char → Option (List Char × List Char)
  | '"' :: rest => scanJString rest
  | _ => none

/-- Read the members of a non-empty flat string-valued object, consuming the
closing brace. `fuel` bounds the number of members. -/
def parseMembers : Nat → List Char → Option (List (String × String) × List Char)
  | 0, _ => none
  | fuel + 1, cs =>
    match parseJString (skipWs cs) with
    | none => none
    | some (k, cs1) =>
      match skipWs cs1 with
      | ':' :: cs2 =>
        match parseJString (skipWs cs2) with
        | none => none
        | some (v, cs3) =>
          match skipWs cs3 with
          | ',' :: cs4 =>
            (parseMembers fuel cs4).map (fun pr => ((⟨k⟩, ⟨v⟩) :: pr.1, pr.2))
          | '\x7d' :: cs4 => some ([(⟨k⟩, ⟨v⟩)], cs4)
          | _ => none
      | _ => none

/-- `encoding/json.Unmarshal` into a `map[string]string`, restricted to the
flat escape-free objects this development needs: the whole input must be one
object of string members. The returned list is in textual member order;
`dedupKeepLast` turns it into the decoded map. -/
def parseStrMap (s : String) : Option (List (String × String)) :=
  match skipWs s.data with
  | '\x7b' :: cs =>
    match skipWs cs with
    | '\x7d' :: cs2 => if skipWs cs2 = [] then some [] else none
    | _ =>
      match parseMembers (cs.length + 1) cs with
      | some (ps, rest) => if skipWs rest = [] then some ps else none
      | none => none
  | _ => none

/-- One iteration of the field loop of `UnmarshalJSON`: empty and
whitespace-only values are skipped, the toolchain key is ignored, the
sentinel version is not stored, the time value must parse as RFC 3339, and
any other key is folded into `Extra`; stored values are trimmed. -/
def processStep (bld : BuildInfo) (k v : String) : Option BuildInfo :=
  if v = "" then some bld
  else if goTrim v = "" then some bld
  else if k = keyGoversion then some bld
  else if k = keyVersion then
    some (if goTrim v ≠ EmptyVersion then { bld with Version := goTrim v } else bld)
  else if k = keyRevision then some { bld with Revision := goTrim v }
  else if k = keyTime then
    match parseRFC3339 (goTrim v) with
    | none => none
    | some t => some { bld with Time := t }
  else some (bld.withExtra k (goTrim v))

/-- The field loop of `UnmarshalJSON` over the decoded members; a time
parse failure aborts with an error (`none`). -/
def processFields (bld : BuildInfo) : List (String × String) → Option BuildInfo
  | [] => some bld
  | (k, v) :: rest => (processStep bld k v).bind (fun b => processFields b rest)

/-- `UnmarshalJSON`: decode into a string map, then run the field loop.
Failures (JSON decode or time parse) are modelled as `none`. -/
def BuildInfo.UnmarshalJSON (bld : BuildInfo) (s : String) : Option BuildInfo :=
  match parseStrMap s with
  | none => none
  | some fields => processFields bld (dedupKeepLast fields)

namespace V1

/-- The dummy placeholder version. -/
def DummyVersion : String := "0.0.0"

/-- The dummy placeholder revision. -/
def DummyRevision : String := "abcdef"

/-- The dummy placeholder branch. -/
def DummyBranch : String := "dev"

/-- The dummy placeholder build date. -/
def DummyDate : String := "1997-08-29 13:37:00"

/-- The historical `BuildInfo` struct (Version/Revision/Branch/Date). -/
structure BuildInfo where
  Version : String := ""
  Revision : String := ""
  Branch : String := ""
  Date : String := ""
  deriving DecidableEq

/-- `IsDummy`: all fields hold their dummy values. -/
def IsDummy (bld : BuildInfo) : Bool :=
  bld.Version = DummyVersion && bld.Revision = DummyRevision &&
  bld.Branch = DummyBranch && bld.Date = DummyDate

end V1

/-! ## HTTP handler (`HTTPHandler`) -/

/-- The observable effect of one invocation of the handler: the headers it
sets and the body it writes. -/
structure HttpResponse where
  headers : List (String × String)
  body : String
  deriving DecidableEq

/-- Sakamoto's weekday formula for the proleptic Gregorian calendar
(0 = Sunday), matching Go's absolute-date weekday. -/
def weekdayOf (y m d : Nat) : Nat :=
  let t := [0, 3, 2, 5, 0, 3, 5, 1, 4, 6, 2, 4]
  let y1 := if m < 3 then y - 1 else y
  (y1 + y1 / 4 - y1 / 100 + y1 / 400 + t.getD (m - 1) 0 + d) % 7

/-- Three-letter weekday names, Sunday first. -/
def dayName (n : Nat) : String :=
  (["Sun", "Mon", "Tue", "Wed", "Thu", "Fri", "Sat"]).getD n ""

/-- Three-letter month names. -/
def monthName (n : Nat) : String :=
  (["Jan", "Feb", "Mar", "Apr", "May", "Jun", "Jul", "Aug", "Sep", "Oct",
    "Nov", "Dec"]).getD (n - 1) ""

/-- Go's `Time.Format(http.TimeFormat)`:
`Mon, 02 Jan 2006 15:04:05 GMT` over the stored wall clock. -/
def formatHTTPDate (t : GoTime) : String :=
  dayName (weekdayOf t.year t.month t.day) ++ ", " ++ ⟨pad2 t.day⟩ ++ " " ++
  monthName t.month ++ " " ++ ⟨pad4 t.year⟩ ++ " " ++ ⟨pad2 t.hour⟩ ++ ":" ++
  ⟨pad2 t.minute⟩ ++ ":" ++ ⟨pad2 t.second⟩ ++ " GMT"

/-- `HTTPHandler`: sets `Content-Type`, sets `Last-Modified` from the build
time when it is non-zero, and writes the record's JSON as the body. -/
def HTTPHandler (bld : BuildInfo) (rt : String) : HttpResponse :=
  { headers :=
      [("Content-Type", "application/json")]
      ++ (if bld.Time.IsZero then []
          else [("Last-Modified", formatHTTPDate bld.Time)])
    body := bld.writeJson rt }

/-! ## Generator git collaborator (`CurrentTag`, internal package) -/

/-- Result of one `git` invocation: captured standard output on success, an
exit error with captured standard error, or any other failure. -/
inductive ExecGitResult where
  | ok (out : String)
  | exitErr (stderr : String)
  | otherErr (msg : String)
  deriving DecidableEq

/-- `DefaultTag` of the internal package. -/
def DefaultTag : String := "0.0.0"

/-- `strings.Cut(s, "-")`: the part before the first dash and the part after
it (empty when there is no dash). -/
def cutDash : List Char → List Char × List Char
  | [] => ([], [])
  | c :: rest =>
    if c = '-' then ([], rest)
    else
      let pr := cutDash rest
      (c :: pr.1, pr.2)

/-- `cutTag`: trim the raw tag bytes and split at the first dash. -/
def cutTag (b : String) : String × String :=
  let pr := cutDash (goTrim b).data
  (⟨pr.1⟩, ⟨pr.2⟩)

/-- `CurrentTag`, given the outcome of `git describe --tags --abbrev=0`:
an exit error whose diagnostic output signals absence of tags resolves to
the default tag with an empty remainder; every other failure propagates. -/
def CurrentTag (describe : ExecGitResult) : Except String (String × String) :=
  match describe with
  | .ok out => .ok (cutTag out)
  | .exitErr stderr =>
    if hasSubstr stderr "No names found" || hasSubstr stderr "cannot describe" then
      .ok (DefaultTag, "")
    else .error stderr
  | .otherErr msg => .error msg

/-! ## Canonical records (round-trip domain) -/

/-- Characters the hand-rolled encoder may emit inside a JSON string so that
a standard decoder reads them back verbatim: printable, no quote, no
backslash. -/
def goodChar (c : Char) : Bool := 32 ≤ c.toNat && c ≠ '"' && c ≠ '\\'

/-- All characters of `s` are `goodChar`. -/
def goodStr (s : String) : Bool := s.data.all goodChar

/-- Canonical form of a record (together with the ambient toolchain version
`rt`): the fields survive the encoder's lack of escaping, trimming, and the
empty-version sentinel. -/
def CanonicalRecord (bld : BuildInfo) (rt : String) : Prop :=
  goodStr (bld.GoVersion rt) = true ∧
  goodStr bld.Version = true ∧ goTrim bld.Version = bld.Version ∧
  bld.Version ≠ EmptyVersion ∧
  goodStr bld.Revision = true ∧ goTrim bld.Revision = bld.Revision ∧
  (bld.Time.IsZero = true ∨ bld.Time.Valid) ∧
  NoDupKeys bld.Extra ∧
  ∀ kv ∈ bld.Extra, isReservedKey kv.1 = false ∧ goodStr kv.1 = true ∧
    goodStr kv.2 = true ∧ goTrim kv.2 = kv.2 ∧ kv.2 ≠ ""

instance (bld : BuildInfo) (rt : String) : Decidable (CanonicalRecord bld rt) := by
  unfold CanonicalRecord NoDupKeys; infer_instance

/-! ## Basic string and association-list lemmas -/

theorem str_ext {s t : String} (h : s.data = t.data) : s = t := by
  cases s; cases t; exact congrArg String.mk h

theorem strMk_data (s : String) : (⟨s.data⟩ : String) = s := rfl

theorem lookupAssoc_update_self (l : List (String × String)) (k v : String) :
    lookupAssoc (updateAssoc l k v) k = some v := by
  induction l with
  | nil => simp [updateAssoc, lookupAssoc]
  | cons hd t ih =>
    obtain ⟨k0, v0⟩ := hd
    by_cases hk : k0 = k
    · simp [updateAssoc, hk, lookupAssoc]
    · simp [updateAssoc, hk, lookupAssoc, ih]

theorem lookupAssoc_update_other (l : List (String × String)) (k v k1 : String)
    (h : k1 ≠ k) : lookupAssoc (updateAssoc l k v) k1 = lookupAssoc l k1 := by
  have h1 : ¬(k = k1) := fun hh => h hh.symm
  induction l with
  | nil => simp [updateAssoc, lookupAssoc, h1]
  | cons hd t ih =>
    obtain ⟨k0, v0⟩ := hd
    by_cases hk : k0 = k
    · subst hk; simp [updateAssoc, lookupAssoc, h1]
    · simp only [updateAssoc, if_neg hk, lookupAssoc]
      by_cases hk1 : k0 = k1 <;> simp [hk1, ih]

theorem updateAssoc_of_not_mem {l : List (String × String)} {k : String}
    (h : k ∉ l.map Prod.fst) (v : String) : updateAssoc l k v = l ++ [(k, v)] := by
  induction l with
  | nil => simp [updateAssoc]
  | cons hd t ih =>
    obtain ⟨k0, v0⟩ := hd
    simp only [List.map_cons, List.mem_cons, not_or] at h
    have h0 : ¬(k0 = k) := fun hh => h.1 hh.symm
    simp [updateAssoc, h0, ih h.2]

theorem keys_updateAssoc_mem {l : List (String × String)} {k : String}
    (h : k ∈ l.map Prod.fst) (v : String) :
    (updateAssoc l k v).map Prod.fst = l.map Prod.fst := by
  induction l with
  | nil => cases h
  | cons hd t ih =>
    obtain ⟨k0, v0⟩ := hd
    by_cases hk : k0 = k
    · subst hk; simp [updateAssoc]
    · have hm : k ∈ t.map Prod.fst := by
        rcases List.mem_cons.mp h with h1 | h1
        · exact absurd h1.symm hk
        · exact h1
      simp [updateAssoc, hk, ih hm]

theorem noDupKeys_updateAssoc {l : List (String × String)} (k v : String)
    (h : NoDupKeys l) : NoDupKeys (updateAssoc l k v) := by
  by_cases hm : k ∈ l.map Prod.fst
  · unfold NoDupKeys
    rw [keys_updateAssoc_mem hm]
    exact h
  · unfold NoDupKeys
    rw [updateAssoc_of_not_mem hm, List.map_append]
    refine List.Nodup.append h (List.nodup_singleton k) ?_
    intro a ha hb
    simp only [List.map_cons, List.map_nil, List.mem_singleton] at hb
    exact hm (hb ▸ ha)

theorem lookupAssoc_eq_none {l : List (String × String)} {k : String}
    (h : k ∉ l.map Prod.fst) : lookupAssoc l k = none := by
  induction l with
  | nil => rfl
  | cons hd t ih =>
    obtain ⟨k0, v0⟩ := hd
    simp only [List.map_cons, List.mem_cons, not_or] at h
    have h0 : ¬(k0 = k) := fun hh => h.1 hh.symm
    simp [lookupAssoc, h0, ih h.2]

theorem foldExtras_cons (kv : String × String) (e m : List (String × String)) :
    foldExtras (kv :: e) m =
      foldExtras e (if isReservedKey kv.1 then m else updateAssoc m kv.1 kv.2) := rfl

theorem foldExtras_lookup_reserved (e : List (String × String)) (k : String)
    (hk : isReservedKey k = true) :
    ∀ m, lookupAssoc (foldExtras e m) k = lookupAssoc m k := by
  induction e with
  | nil => intro m; rfl
  | cons hd t ih =>
    intro m
    obtain ⟨k0, v0⟩ := hd
    by_cases h0 : isReservedKey k0
    · simp [foldExtras_cons, h0, ih]
    · have hne : k ≠ k0 := by
        intro hh; rw [hh] at hk; simp [hk] at h0
      simp [foldExtras_cons, h0, ih, lookupAssoc_update_other _ _ _ _ hne]

theorem foldExtras_lookup_not_mem (e : List (String × String)) (k : String)
    (h : k ∉ e.map Prod.fst) :
    ∀ m, lookupAssoc (foldExtras e m) k = lookupAssoc m k := by
  induction e with
  | nil => intro m; rfl
  | cons hd t ih =>
    intro m
    obtain ⟨k0, v0⟩ := hd
    simp only [List.map_cons, List.mem_cons, not_or] at h
    by_cases h0 : isReservedKey k0
    · simp [foldExtras_cons, h0, ih h.2]
    · have hne : k ≠ k0 := h.1
      simp [foldExtras_cons, h0, ih h.2, lookupAssoc_update_other _ _ _ _ hne]

theorem foldExtras_lookup_mem (e : List (String × String)) (k v : String)
    (hnd : (e.map Prod.fst).Nodup) (hmem : (k, v) ∈ e)
    (hres : isReservedKey k = false) :
    ∀ m, lookupAssoc (foldExtras e m) k = some v := by
  induction e with
  | nil => cases hmem
  | cons hd t ih =>
    intro m
    obtain ⟨k0, v0⟩ := hd
    simp only [List.map_cons, List.nodup_cons] at hnd
    rcases List.mem_cons.mp hmem with h | h
    · injection h with hk hv
      subst hk; subst hv
      have hnm : k ∉ t.map Prod.fst := hnd.1
      simp [foldExtras_cons, hres, foldExtras_lookup_not_mem t k hnm,
        lookupAssoc_update_self]
    · have hne : k ≠ k0 := by
        intro hh; subst hh
        exact hnd.1 (List.mem_map.mpr ⟨(k, v), h, rfl⟩)
      by_cases h0 : isReservedKey k0
      · simp [foldExtras_cons, h0, ih hnd.2 h]
      · simp [foldExtras_cons, h0, ih hnd.2 h]

theorem data_nil : ("" : String).data = [] := rfl

/-! ## Claim C7: `IsDummy` -/

/-- C7: `IsDummy` is true exactly when every tracked field equals its
placeholder constant simultaneously, and flipping any single field to a
non-placeholder value falsifies it. -/
theorem isDummy_iff_all_placeholders (bld : V1.BuildInfo) :
    (V1.IsDummy bld = true ↔
      bld.Version = V1.DummyVersion ∧ bld.Revision = V1.DummyRevision ∧
      bld.Branch = V1.DummyBranch ∧ bld.Date = V1.DummyDate) ∧
    (∀ v, v ≠ V1.DummyVersion → V1.IsDummy { bld with Version := v } = false) ∧
    (∀ v, v ≠ V1.DummyRevision → V1.IsDummy { bld with Revision := v } = false) ∧
    (∀ v, v ≠ V1.DummyBranch → V1.IsDummy { bld with Branch := v } = false) ∧
    (∀ v, v ≠ V1.DummyDate → V1.IsDummy { bld with Date := v } = false) := by
  refine ⟨?_, ?_, ?_, ?_, ?_⟩
  · simp [V1.IsDummy, and_assoc]
  all_goals intro v hv; simp [V1.IsDummy, hv]

/-- Witness for C7 at the dummy record and a changed version. -/
theorem isDummy_iff_witness :
    V1.IsDummy ⟨"0.0.0", "abcdef", "dev", "1997-08-29 13:37:00"⟩ = true ∧
    V1.IsDummy ⟨"v1.2.3", "abcdef", "dev", "1997-08-29 13:37:00"⟩ = false := by
  constructor
  · exact (isDummy_iff_all_placeholders _).1.mpr (by decide)
  · exact (isDummy_iff_all_placeholders
      ⟨"0.0.0", "abcdef", "dev", "1997-08-29 13:37:00"⟩).2.1 "v1.2.3" (by decide)

/-! ## Claim C9: `CurrentTag` -/

/-- C9: when `git describe` exits with diagnostics containing one of the
absent-tags markers, `CurrentTag` resolves to the default tag `0.0.0` with
an empty remainder and no error; every other failure propagates. -/
theorem currentTag_spec (stderr msg : String) :
    ((hasSubstr stderr "No names found" || hasSubstr stderr "cannot describe") = true →
      CurrentTag (.exitErr stderr) = .ok ("0.0.0", "")) ∧
    ((hasSubstr stderr "No names found" || hasSubstr stderr "cannot describe") = false →
      CurrentTag (.exitErr stderr) = .error stderr) ∧
    CurrentTag (.otherErr msg) = .error msg := by
  refine ⟨fun h => ?_, fun h => ?_, rfl⟩ <;> simp [CurrentTag, h, DefaultTag]

/-- Witness for C9 at concrete diagnostics. -/
theorem currentTag_spec_witness :
    CurrentTag (.exitErr "fatal: No names found, cannot describe anything.") =
      .ok ("0.0.0", "") ∧
    CurrentTag (.exitErr "boom") = .error "boom" :=
  ⟨(currentTag_spec "fatal: No names found, cannot describe anything." "m").1 (by decide),
   (currentTag_spec "boom" "m").2.1 (by decide)⟩

/-! ## Claim C3: `String()` -/

/-- C3: `String()` always starts with the (surfaced) version, appends the
revision when present and then the parenthesized RFC 3339 time when
present, each separated by one space; with both absent it is the version
alone, and the concrete record of the claim renders exactly as stated. -/
theorem string_format_spec (bld : BuildInfo) :
    bld.string =
      bld.version ++ (if bld.Revision = "" then "" else " " ++ bld.Revision) ++
        (if bld.Time.IsZero then "" else " (" ++ formatRFC3339 bld.Time ++ ")") ∧
    BuildInfo.string
        { Version := "v1.0.66", Revision := "fedcba",
          Time := ⟨2020, 6, 16, 19, 53, 0, 0⟩ } =
      "v1.0.66 fedcba (2020-06-16T19:53:00Z)" := by
  constructor
  · by_cases hr : bld.Revision = "" <;> by_cases ht : bld.Time.IsZero = true <;>
      · simp only [BuildInfo.string, hr, ht, if_true, if_false, ite_true, ite_false,
          true_and, false_and, and_true, and_false, not_true, not_false_iff,
          ne_eq, not_false_eq_true]
        apply str_ext
        simp [String.data_append, data_nil]
  · rfl

/-! ## Claim C8: the HTTP handler -/

/-- C8: the handler's response carries `Content-Type: application/json`, a
body byte-for-byte equal to `MarshalJSON`, and a `Last-Modified` header in
Go's `http.TimeFormat` exactly when the build time is non-zero. -/
theorem httpHandler_spec (bld : BuildInfo) (rt : String) :
    lookupAssoc (HTTPHandler bld rt).headers "Content-Type" = some "application/json" ∧
    (HTTPHandler bld rt).body = bld.MarshalJSON rt ∧
    lookupAssoc (HTTPHandler bld rt).headers "Last-Modified" =
      (if bld.Time.IsZero then none else some (formatHTTPDate bld.Time)) := by
  have hne : ¬(("Content-Type" : String) = "Last-Modified") := by decide
  refine ⟨?_, rfl, ?_⟩ <;> by_cases h : bld.Time.IsZero = true <;>
    simp [HTTPHandler, h, lookupAssoc, hne]

/-! ## Claim C6: `WithExtra` -/

/-- C6: `WithExtra` on a reserved key aborts (no result, record untouched);
on a non-reserved key it succeeds and the pair is visible in `Map()`. -/
theorem withExtra_spec (bld : BuildInfo) (rt k v : String)
    (hnd : NoDupKeys bld.Extra) :
    (isReservedKey k = true → bld.WithExtra k v = none) ∧
    (isReservedKey k = false →
      bld.WithExtra k v = some (bld.withExtra k v) ∧
      lookupAssoc ((bld.withExtra k v).Map rt) k = some v) := by
  constructor
  · intro h; simp [BuildInfo.WithExtra, h]
  · intro h
    refine ⟨by simp [BuildInfo.WithExtra, h], ?_⟩
    have hmem : (k, v) ∈ (bld.withExtra k v).Extra := by
      simp only [BuildInfo.withExtra]
      induction bld.Extra with
      | nil => simp [updateAssoc]
      | cons hd t ih =>
        obtain ⟨k0, v0⟩ := hd
        by_cases hk : k0 = k
        · simp [updateAssoc, hk]
        · simp only [updateAssoc, if_neg hk]
          exact List.mem_cons_of_mem _ ih
    have hnd1 : ((bld.withExtra k v).Extra.map Prod.fst).Nodup :=
      noDupKeys_updateAssoc k v hnd
    simp only [BuildInfo.Map]
    exact foldExtras_lookup_mem _ k v hnd1 hmem h _

/-- Witness for C6 on a concrete record and key. -/
theorem withExtra_spec_witness :
    BuildInfo.WithExtra { Version := "v1" } "time" "x" = none ∧
    lookupAssoc
        ((BuildInfo.withExtra { Version := "v1" } "commit" "abc").Map "go1.21.0")
        "commit" = some "abc" := by
  have h := withExtra_spec { Version := "v1" } "go1.21.0" "time" "x" (by decide)
  have h1 := withExtra_spec { Version := "v1" } "go1.21.0" "commit" "abc" (by decide)
  exact ⟨h.1 (by decide), (h1.2 (by decide)).2⟩

/-! ## Claim C4: `Map()` -/

/-- C4 (amended): `Map()` always contains the version and toolchain-version
keys, contains revision/time exactly when non-empty/non-zero, and contains
every entry of `Extra` whose key is not reserved (the keys of `Extra` being
distinct, as for any Go map). -/
theorem map_keys_spec (bld : BuildInfo) (rt : String) (hnd : NoDupKeys bld.Extra) :
    lookupAssoc (bld.Map rt) keyVersion = some bld.version ∧
    lookupAssoc (bld.Map rt) keyGoversion = some (bld.GoVersion rt) ∧
    lookupAssoc (bld.Map rt) keyRevision =
      (if bld.Revision = "" then none else some bld.Revision) ∧
    lookupAssoc (bld.Map rt) keyTime =
      (if bld.Time.IsZero then none else some (formatRFC3339 bld.Time)) ∧
    ∀ k v, (k, v) ∈ bld.Extra → isReservedKey k = false →
      lookupAssoc (bld.Map rt) k = some v := by
  have nGV : ¬(keyGoversion = keyVersion) := by decide
  have nRV : ¬(keyRevision = keyVersion) := by decide
  have nTV : ¬(keyTime = keyVersion) := by decide
  have nVG : ¬(keyVersion = keyGoversion) := by decide
  have nRG : ¬(keyRevision = keyGoversion) := by decide
  have nTG : ¬(keyTime = keyGoversion) := by decide
  have nVR : ¬(keyVersion = keyRevision) := by decide
  have nGR : ¬(keyGoversion = keyRevision) := by decide
  have nTR : ¬(keyTime = keyRevision) := by decide
  have nVT : ¬(keyVersion = keyTime) := by decide
  have nGT : ¬(keyGoversion = keyTime) := by decide
  have nRT : ¬(keyRevision = keyTime) := by decide
  refine ⟨?_, ?_, ?_, ?_, ?_⟩
  · simp only [BuildInfo.Map]
    rw [foldExtras_lookup_reserved _ _ (by decide)]
    by_cases hr : bld.Revision = "" <;> by_cases ht : bld.Time.IsZero = true <;>
      simp [hr, ht, lookupAssoc, nGV, nRV, nTV]
  · simp only [BuildInfo.Map]
    rw [foldExtras_lookup_reserved _ _ (by decide)]
    by_cases hr : bld.Revision = "" <;> by_cases ht : bld.Time.IsZero = true <;>
      simp [hr, ht, lookupAssoc, nVG, nRG, nTG]
  · simp only [BuildInfo.Map]
    rw [foldExtras_lookup_reserved _ _ (by decide)]
    by_cases hr : bld.Revision = "" <;> by_cases ht : bld.Time.IsZero = true <;>
      simp [hr, ht, lookupAssoc, nVR, nGR, nTR]
  · simp only [BuildInfo.Map]
    rw [foldExtras_lookup_reserved _ _ (by decide)]
    by_cases hr : bld.Revision = "" <;> by_cases ht : bld.Time.IsZero = true <;>
      simp [hr, ht, lookupAssoc, nVT, nGT, nRT]
  · intro k v hm hres
    simp only [BuildInfo.Map]
    exact foldExtras_lookup_mem _ _ _ hnd hm hres _

/-- C4 counterexample: a record whose `Extra` holds the reserved key
`version` — the entry is in `Extra` but `Map()` does not contain it. -/
theorem map_extra_entry_cex :
    ("version", "x") ∈ ({ Extra := [("version", "x")] } : BuildInfo).Extra ∧
    lookupAssoc (({ Extra := [("version", "x")] } : BuildInfo).Map "go1") "version" =
      some "0.0.0" ∧
    lookupAssoc (({ Extra := [("version", "x")] } : BuildInfo).Map "go1") "version" ≠
      some "x" := by decide

/-- Witness for C4 on a concrete record whose `Extra` mixes a reserved key
with an ordinary one. -/
theorem map_keys_spec_witness :
    lookupAssoc
        (({ Version := "v1", Extra := [("version", "x"), ("foo", "bar")] }
          : BuildInfo).Map "go1") keyVersion = some "v1" ∧
    lookupAssoc
        (({ Version := "v1", Extra := [("version", "x"), ("foo", "bar")] }
          : BuildInfo).Map "go1") "foo" = some "bar" := by
  have h := map_keys_spec
    { Version := "v1", Extra := [("version", "x"), ("foo", "bar")] } "go1"
    (by decide)
  exact ⟨h.1, h.2.2.2.2 "foo" "bar" (by decide) (by decide)⟩

/-! ## Claim C2: no reserved keys in `Extra` -/

theorem isReservedKey_eq_false {k : String} :
    isReservedKey k = false ↔
      ¬(k = keyVersion) ∧ ¬(k = keyGoversion) ∧ ¬(k = keyRevision) ∧
      ¬(k = keyTime) := by
  simp [isReservedKey, and_assoc]

theorem processStep_extra {bld : BuildInfo} {k v : String} {b : BuildInfo}
    (h : processStep bld k v = some b) :
    b.Extra = bld.Extra ∨
      (isReservedKey k = false ∧ b.Extra = updateAssoc bld.Extra k (goTrim v)) := by
  unfold processStep at h
  by_cases h1 : v = ""
  · rw [if_pos h1] at h; left; injection h with h; subst h; rfl
  · rw [if_neg h1] at h
    by_cases h2 : goTrim v = ""
    · rw [if_pos h2] at h; left; injection h with h; subst h; rfl
    · rw [if_neg h2] at h
      by_cases h3 : k = keyGoversion
      · rw [if_pos h3] at h; left; injection h with h; subst h; rfl
      · rw [if_neg h3] at h
        by_cases h4 : k = keyVersion
        · rw [if_pos h4] at h
          injection h with h
          subst h
          left
          by_cases hv : goTrim v ≠ EmptyVersion <;> simp [hv]
        · rw [if_neg h4] at h
          by_cases h5 : k = keyRevision
          · rw [if_pos h5] at h; left; injection h with h; subst h; rfl
          · rw [if_neg h5] at h
            by_cases h6 : k = keyTime
            · rw [if_pos h6] at h
              rcases hpt : parseRFC3339 (goTrim v) with _ | t <;> rw [hpt] at h
              · cases h
              · left; injection h with h; subst h; rfl
            · rw [if_neg h6] at h
              right
              refine ⟨isReservedKey_eq_false.mpr ⟨h4, h3, h5, h6⟩, ?_⟩
              injection h with h
              subst h
              rfl

theorem dataQ : ("\"" : String).data = ['"'] := rfl

theorem dataColonQ : ("\":\"" : String).data = ['"', ':', '"'] := rfl

theorem dataCommaQ : ("\",\"" : String).data = ['"', ',', '"'] := rfl

theorem dataComma : ("," : String).data = [','] := rfl

theorem dataLBrace : ("\x7b" : String).data = ['\x7b'] := rfl

theorem dataRBrace : ("\x7d" : String).data = ['\x7d'] := rfl

theorem dataObjVer :
    ("\x7b\"version\":\"" : String).data =
      ['\x7b', '"', 'v', 'e', 'r', 's', 'i', 'o', 'n', '"', ':', '"'] := rfl

theorem dataChunkRev :
    ("\",\"revision\":\"" : String).data =
      ['"', ',', '"', 'r', 'e', 'v', 'i', 's', 'i', 'o', 'n', '"', ':', '"'] := rfl

theorem dataChunkTime :
    ("\",\"time\":\"" : String).data =
      ['"', ',', '"', 't', 'i', 'm', 'e', '"', ':', '"'] := rfl

theorem dataChunkGov :
    ("\",\"goversion\":\"" : String).data =
      ['"', ',', '"', 'g', 'o', 'v', 'e', 'r', 's', 'i', 'o', 'n', '"', ':', '"'] := rfl

theorem dataCloseObj : ("\"\x7d" : String).data = ['"', '\x7d'] := rfl

theorem dataKeyVersion : keyVersion.data = ['v', 'e', 'r', 's', 'i', 'o', 'n'] := rfl

theorem dataKeyGoversion :
    keyGoversion.data = ['g', 'o', 'v', 'e', 'r', 's', 'i', 'o', 'n'] := rfl

theorem dataKeyRevision :
    keyRevision.data = ['r', 'e', 'v', 'i', 's', 'i', 'o', 'n'] := rfl

theorem dataKeyTime : keyTime.data = ['t', 'i', 'm', 'e'] := rfl

theorem joinPairs_chunk (k v : String) (e : List (String × String)) :
    "\"" ++ k ++ "\":\"" ++ v ++ extraChunk e ++ "\"" = joinPairs ((k, v) :: e) := by
  induction e generalizing k v with
  | nil =>
    apply str_ext
    simp [joinPairs, renderPair, extraChunk, String.data_append, data_nil,
      dataQ, dataColonQ]
  | cons hd t ih =>
    obtain ⟨k2, v2⟩ := hd
    have hjp : joinPairs ((k, v) :: (k2, v2) :: t) =
        renderPair k v ++ "," ++ joinPairs ((k2, v2) :: t) := rfl
    rw [hjp, ← ih k2 v2]
    apply str_ext
    simp [renderPair, extraChunk, String.data_append, data_nil,
      dataQ, dataColonQ, dataCommaQ, dataComma]

/-- `writeJson` emits exactly the flat JSON object over `jsonFields`:
`version`, then `revision` when non-empty, then the RFC 3339 `time` when
non-zero, then `goversion`, then the `Extra` entries in order. -/
theorem writeJson_eq_renderFields (bld : BuildInfo) (rt : String) :
    bld.writeJson rt = renderFlatObj (jsonFields bld rt) := by
  by_cases hr : bld.Revision = "" <;> by_cases ht : bld.Time.IsZero = true <;>
    · simp only [BuildInfo.writeJson, jsonFields, renderFlatObj, hr, ht, if_true,
        if_false, ite_true, ite_false, ne_eq, not_true, not_false_iff,
        List.cons_append, List.nil_append, List.append_nil, List.singleton_append]
      rw [← joinPairs_chunk]
      apply str_ext
      simp [extraChunk, String.data_append, data_nil, dataQ, dataColonQ,
        dataCommaQ, dataObjVer, dataChunkRev, dataChunkTime, dataChunkGov,
        dataCloseObj, dataKeyVersion, dataKeyGoversion, dataKeyRevision,
        dataKeyTime, dataLBrace, dataRBrace]

/-! ## Claim C5: `MarshalJSON` -/

/-- C5: `MarshalJSON` produces the flat JSON object whose members are, in
order, `version`, then `revision` when non-empty, then the RFC 3339 `time`
when non-zero, then `goversion`, then the `Extra` entries; in particular it
always contains `version` and `goversion`. -/
theorem marshal_json_spec (bld : BuildInfo) (rt : String) :
    bld.MarshalJSON rt = renderFlatObj (jsonFields bld rt) ∧
    (jsonFields bld rt).map Prod.fst =
      keyVersion :: ((if bld.Revision ≠ "" then [keyRevision] else []) ++
        (if bld.Time.IsZero then [] else [keyTime]) ++
        keyGoversion :: bld.Extra.map Prod.fst) := by
  refine ⟨writeJson_eq_renderFields bld rt, ?_⟩
  by_cases hr : bld.Revision = "" <;> by_cases ht : bld.Time.IsZero = true <;>
    simp [jsonFields, hr, ht]

/-! ## Decoder correctness on encoder output -/

theorem goodStr_chars {s : String} (h : goodStr s = true) :
    ∀ c ∈ s.data, goodChar c = true := by
  simpa [goodStr, List.all_eq_true] using h

theorem skipWs_cons {c : Char} (cs : List Char) (h : isJsonWs c = false) :
    skipWs (c :: cs) = c :: cs := by
  simp [skipWs, List.dropWhile, h]

theorem scanJString_append (s : List Char) (h : ∀ c ∈ s, goodChar c = true) :
    ∀ rest, scanJString (s ++ '"' :: rest) = some (s, rest) := by
  induction s with
  | nil => intro rest; simp [scanJString]
  | cons c cs ih =>
    intro rest
    have hc := h c (by simp)
    have h1 : ¬(c = '"') := fun hh => absurd (hh ▸ hc) (by decide)
    have h2 : ¬(c = '\\') := fun hh => absurd (hh ▸ hc) (by decide)
    have h3 : ¬(c.toNat < 32) := by
      simp only [goodChar, Bool.and_eq_true, decide_eq_true_eq] at hc
      omega
    simp [scanJString, h1, h2, h3, ih (fun d hd => h d (by simp [hd]))]

theorem parseJString_append (s : List Char) (h : ∀ c ∈ s, goodChar c = true) :
    ∀ rest, parseJString ('"' :: (s ++ '"' :: rest)) = some (s, rest) := by
  intro rest
  simp [parseJString, scanJString_append s h]

theorem renderPair_data (k v : String) :
    (renderPair k v).data = '"' :: (k.data ++ '"' :: ':' :: '"' :: (v.data ++ ['"'])) := by
  simp [renderPair, String.data_append, dataQ, dataColonQ]

theorem parseMembers_render :
    ∀ (ps : List (String × String)) (k v : String) (fuel : Nat) (rest : List Char),
      (∀ kv ∈ (k, v) :: ps, goodStr kv.1 = true ∧ goodStr kv.2 = true) →
      ps.length < fuel →
      parseMembers fuel ((joinPairs ((k, v) :: ps)).data ++ '\x7d' :: rest) =
        some ((k, v) :: ps, rest) := by
  have wsQ : isJsonWs '"' = false := by decide
  have wsColon : isJsonWs ':' = false := by decide
  have wsComma : isJsonWs ',' = false := by decide
  have wsRB : isJsonWs '\x7d' = false := by decide
  intro ps
  induction ps with
  | nil =>
    intro k v fuel rest hgood hfuel
    obtain ⟨hk, hv⟩ := hgood (k, v) (by simp)
    cases fuel with
    | zero => omega
    | succ n =>
      have hjp : (joinPairs [(k, v)]).data = (renderPair k v).data := rfl
      rw [hjp, renderPair_data, List.cons_append]
      rw [show (k.data ++ '"' :: ':' :: '"' :: (v.data ++ ['"'])) ++ '\x7d' :: rest =
            k.data ++ '"' :: (':' :: '"' :: (v.data ++ '"' :: '\x7d' :: rest)) by
          simp]
      simp only [parseMembers, skipWs_cons, wsQ, wsColon, wsRB,
        parseJString_append k.data (goodStr_chars hk),
        parseJString_append v.data (goodStr_chars hv), strMk_data]
  | cons hd t ih =>
    intro k v fuel rest hgood hfuel
    obtain ⟨k2, v2⟩ := hd
    obtain ⟨hk, hv⟩ := hgood (k, v) (by simp)
    cases fuel with
    | zero => omega
    | succ n =>
      have hjp : joinPairs ((k, v) :: (k2, v2) :: t) =
          renderPair k v ++ "," ++ joinPairs ((k2, v2) :: t) := rfl
      rw [hjp]
      rw [show (renderPair k v ++ "," ++ joinPairs ((k2, v2) :: t)).data ++ '\x7d' :: rest =
            '"' :: (k.data ++ '"' :: (':' :: '"' :: (v.data ++ '"' ::
              (',' :: ((joinPairs ((k2, v2) :: t)).data ++ '\x7d' :: rest))))) by
          simp [String.data_append, renderPair_data, dataComma]]
      have hrec := ih k2 v2 n rest
        (fun kv hkv => hgood kv (by simp at hkv ⊢; tauto))
        (by simpa using Nat.lt_of_succ_lt_succ hfuel)
      simp only [parseMembers, skipWs_cons, wsQ, wsColon, wsComma,
        parseJString_append k.data (goodStr_chars hk),
        parseJString_append v.data (goodStr_chars hv), hrec, strMk_data,
        Option.map_some']

theorem joinPairs_len : ∀ ps : List (String × String), ps.length ≤ (joinPairs ps).data.length := by
  intro ps
  induction ps with
  | nil => simp [joinPairs, data_nil]
  | cons hd t ih =>
    obtain ⟨k, v⟩ := hd
    cases t with
    | nil => simp [joinPairs, renderPair_data]
    | cons hd2 t2 =>
      obtain ⟨k2, v2⟩ := hd2
      have hjp : joinPairs ((k, v) :: (k2, v2) :: t2) =
          renderPair k v ++ "," ++ joinPairs ((k2, v2) :: t2) := rfl
      rw [hjp]
      simp only [String.data_append, renderPair_data, dataComma, List.length_append,
        List.length_cons] at ih ⊢
      omega

theorem parseStrMap_render (ps : List (String × String))
    (hgood : ∀ kv ∈ ps, goodStr kv.1 = true ∧ goodStr kv.2 = true) :
    parseStrMap (renderFlatObj ps) = some ps := by
  cases ps with
  | nil => rfl
  | cons hd t =>
    obtain ⟨k, v⟩ := hd
    have wsLB : isJsonWs '\x7b' = false := by decide
    have wsQ : isJsonWs '"' = false := by decide
    have hdata : (renderFlatObj ((k, v) :: t)).data =
        '\x7b' :: ((joinPairs ((k, v) :: t)).data ++ ['\x7d']) := by
      simp [renderFlatObj, String.data_append, dataLBrace, dataRBrace]
    have hcs : (joinPairs ((k, v) :: t)).data ++ ['\x7d'] =
        '"' :: ((k.data ++ ("\":\"" ++ v ++ extraChunk t ++ "\"").data) ++ ['\x7d']) := by
      rw [← joinPairs_chunk]
      simp [String.data_append, dataQ]
    have h0 := joinPairs_len ((k, v) :: t)
    have hmem := parseMembers_render t k v
      (((joinPairs ((k, v) :: t)).data ++ ['\x7d']).length + 1) [] hgood
      (by
        simp only [List.length_cons, List.length_append, List.length_nil] at h0 ⊢
        omega)
    rw [show (joinPairs ((k, v) :: t)).data ++ '\x7d' :: [] =
          (joinPairs ((k, v) :: t)).data ++ ['\x7d'] from rfl] at hmem
    unfold parseStrMap
    rw [hdata, skipWs_cons _ wsLB]
    rw [hcs] at hmem
    simp only [hcs, skipWs_cons, wsQ, hmem]
    simp [skipWs]

theorem dedupKeepLast_eq_self (l : List (String × String)) (h : NoDupKeys l) :
    dedupKeepLast l = l := by
  suffices hgen : ∀ (l acc : List (String × String)),
      (acc.map Prod.fst ++ l.map Prod.fst).Nodup →
      l.foldl (fun acc kv => updateAssoc acc kv.1 kv.2) acc = acc ++ l by
    simpa using hgen l [] (by simpa [NoDupKeys] using h)
  intro l
  induction l with
  | nil => intro acc _; simp
  | cons hd t ih =>
    intro acc hnd
    obtain ⟨k, v⟩ := hd
    have hk : k ∉ acc.map Prod.fst := by
      intro hmem
      have := (List.nodup_append.mp hnd).2.2
      exact this hmem (by simp)
    simp only [List.foldl_cons, updateAssoc_of_not_mem hk]
    rw [ih (acc ++ [(k, v)]) (by simpa using hnd)]
    simp

theorem noDupKeys_dedupKeepLast (l : List (String × String)) :
    NoDupKeys (dedupKeepLast l) := by
  suffices hgen : ∀ (l acc : List (String × String)), NoDupKeys acc →
      NoDupKeys (l.foldl (fun acc kv => updateAssoc acc kv.1 kv.2) acc) by
    exact hgen l [] (by simp [NoDupKeys])
  intro l
  induction l with
  | nil => intro acc h; exact h
  | cons hd t ih =>
    intro acc h
    exact ih _ (noDupKeys_updateAssoc _ _ h)

/-! ## RFC 3339 round trip -/

theorem digit_lt10 : ∀ d : Nat, d < 10 → isDigCh (digCh d) = true ∧ digVal (digCh d) = d := by
  decide

theorem expectCh_cons (c : Char) (rest : List Char) : expectCh c (c :: rest) = some rest := by
  simp [expectCh]

theorem parse2_pad2 (n : Nat) (h : n < 100) :
    ∀ rest, parse2 (pad2 n ++ rest) = some (n, rest) := by
  intro rest
  have h1 := digit_lt10 (n / 10) (by omega)
  have h2 := digit_lt10 (n % 10) (by omega)
  have hval : 10 * (n / 10) + n % 10 = n := by omega
  simp [pad2, parse2, h1.1, h2.1, h1.2, h2.2, hval]

theorem parse4_pad4 (n : Nat) (h : n < 10000) :
    ∀ rest, parse4 (pad4 n ++ rest) = some (n, rest) := by
  intro rest
  have h1 := digit_lt10 (n / 1000) (by omega)
  have h2 := digit_lt10 (n / 100 % 10) (by omega)
  have h3 := digit_lt10 (n / 10 % 10) (by omega)
  have h4 := digit_lt10 (n % 10) (by omega)
  have hval : 1000 * (n / 1000) + 100 * (n / 100 % 10) + 10 * (n / 10 % 10) + n % 10 = n := by
    omega
  simp [pad4, parse4, h1.1, h2.1, h3.1, h4.1, h1.2, h2.2, h3.2, h4.2, hval]

theorem parseOffset_offChars (off : Int) (h60 : off % 60 = 0)
    (hle : off.natAbs ≤ 86340) : parseOffset (offChars off) = some off := by
  by_cases h0 : off = 0
  · subst h0; rfl
  · have hoh : off.natAbs / 60 / 60 ≤ 23 := by omega
    have hom : off.natAbs / 60 % 60 ≤ 59 := by omega
    have hp2a := parse2_pad2 (off.natAbs / 60 / 60) (by omega)
      (':' :: pad2 (off.natAbs / 60 % 60))
    have hp2b : parse2 (pad2 (off.natAbs / 60 % 60)) =
        some (off.natAbs / 60 % 60, []) := by
      have := parse2_pad2 (off.natAbs / 60 % 60) (by omega) []
      simpa using this
    simp only [pad2, List.cons_append, List.nil_append] at hp2a hp2b
    have habs : |off| = ((off.natAbs : Nat) : Int) := by
      exact_mod_cast Int.abs_eq_natAbs off
    by_cases hneg : off < 0
    · simp only [offChars, if_neg h0, if_pos hneg, pad2, List.cons_append,
        List.nil_append]
      simp [parseOffset, hp2a, hp2b, hoh, hom, Option.some.injEq]
      omega
    · simp only [offChars, if_neg h0, if_neg hneg, pad2, List.cons_append,
        List.nil_append]
      simp [parseOffset, hp2a, hp2b, hoh, hom, Option.some.injEq]
      omega

theorem parseTimeChars_fmt (t : GoTime) (h : t.Valid) :
    parseTimeChars (fmtChars t) = some t := by
  obtain ⟨h1, h2, h3, h4, h5, h6, h7, h8, h9, h10⟩ := h
  have hy := parse4_pad4 t.year (by omega)
  have hmo := parse2_pad2 t.month (by omega)
  have hd := parse2_pad2 t.day (by
    have : daysIn t.year t.month ≤ 31 := by
      unfold daysIn
      split_ifs <;> simp
    omega)
  have hh := parse2_pad2 t.hour (by omega)
  have hmi := parse2_pad2 t.minute (by omega)
  have hs := parse2_pad2 t.second (by omega)
  have hoff := parseOffset_offChars t.offset h9 h10
  have hshape : fmtChars t =
      pad4 t.year ++ ('-' :: (pad2 t.month ++ ('-' :: (pad2 t.day ++
        ('T' :: (pad2 t.hour ++ (':' :: (pad2 t.minute ++ (':' ::
          (pad2 t.second ++ offChars t.offset)))))))))) := by
    simp [fmtChars, List.append_assoc]
  rw [hshape]
  simp only [parseTimeChars, hy, hmo, hd, hh, hmi, hs, hoff, expectCh_cons,
    Option.bind_eq_bind, Option.some_bind]
  simp [h1, h2, h3, h4, h5, h6, h7]

/-! ## Trimming and field-loop lemmas -/

theorem dropWhile_eq_self_of {p : Char → Bool} {l : List Char}
    (h : ∀ c ∈ l, p c = false) : l.dropWhile p = l := by
  cases l with
  | nil => rfl
  | cons c t => simp [List.dropWhile, h c (by simp)]

theorem goTrim_of_no_space {s : String} (h : ∀ c ∈ s.data, isGoSpace c = false) :
    goTrim s = s := by
  unfold goTrim
  rw [dropWhile_eq_self_of h,
    dropWhile_eq_self_of (fun c hc => h c (List.mem_reverse.mp hc)),
    List.reverse_reverse]

theorem goTrim_empty : goTrim "" = "" := rfl

theorem processStep_skip_empty (bld : BuildInfo) (k v : String) (h : goTrim v = "") :
    processStep bld k v = some bld := by
  unfold processStep
  by_cases h1 : v = ""
  · rw [if_pos h1]
  · rw [if_neg h1, if_pos h]

theorem processStep_skip_goversion (bld : BuildInfo) (v : String) :
    processStep bld keyGoversion v = some bld := by
  unfold processStep
  by_cases h1 : v = ""
  · rw [if_pos h1]
  · rw [if_neg h1]
    by_cases h2 : goTrim v = ""
    · rw [if_pos h2]
    · rw [if_neg h2, if_pos rfl]

theorem processStep_version_skip (bld : BuildInfo) (v : String)
    (h : goTrim v = "" ∨ goTrim v = EmptyVersion) :
    processStep bld keyVersion v = some bld := by
  rcases h with h | h
  · exact processStep_skip_empty bld keyVersion v h
  · unfold processStep
    by_cases h1 : v = ""
    · rw [if_pos h1]
    · rw [if_neg h1, if_neg (h ▸ (by decide : EmptyVersion ≠ "")),
        if_neg (by decide : ¬(keyVersion = keyGoversion)), if_pos rfl]
      simp [h]

theorem processStep_version_store (bld : BuildInfo) (v : String)
    (h1 : goTrim v ≠ "") (h2 : goTrim v ≠ EmptyVersion) :
    processStep bld keyVersion v = some { bld with Version := goTrim v } := by
  have hv : ¬(v = "") := fun hh => h1 (hh ▸ goTrim_empty)
  unfold processStep
  rw [if_neg hv, if_neg h1, if_neg (by decide : ¬(keyVersion = keyGoversion)),
    if_pos rfl]
  simp [h2]

theorem processStep_revision (bld : BuildInfo) (v : String) (h1 : goTrim v ≠ "") :
    processStep bld keyRevision v = some { bld with Revision := goTrim v } := by
  have hv : ¬(v = "") := fun hh => h1 (hh ▸ goTrim_empty)
  unfold processStep
  rw [if_neg hv, if_neg h1, if_neg (by decide : ¬(keyRevision = keyGoversion)),
    if_neg (by decide : ¬(keyRevision = keyVersion)), if_pos rfl]

theorem processStep_time (bld : BuildInfo) (v : String) (t : GoTime)
    (h1 : goTrim v ≠ "") (hp : parseRFC3339 (goTrim v) = some t) :
    processStep bld keyTime v = some { bld with Time := t } := by
  have hv : ¬(v = "") := fun hh => h1 (hh ▸ goTrim_empty)
  unfold processStep
  rw [if_neg hv, if_neg h1, if_neg (by decide : ¬(keyTime = keyGoversion)),
    if_neg (by decide : ¬(keyTime = keyVersion)),
    if_neg (by decide : ¬(keyTime = keyRevision)), if_pos rfl, hp]

theorem processStep_default (bld : BuildInfo) (k v : String)
    (hres : isReservedKey k = false) (h1 : goTrim v ≠ "") :
    processStep bld k v = some (bld.withExtra k (goTrim v)) := by
  have hv : ¬(v = "") := fun hh => h1 (hh ▸ goTrim_empty)
  obtain ⟨n1, n2, n3, n4⟩ := isReservedKey_eq_false.mp hres
  unfold processStep
  rw [if_neg hv, if_neg h1, if_neg n2, if_neg n1, if_neg n3, if_neg n4]

theorem processStep_version_unchanged {bld : BuildInfo} {k v : String}
    {b : BuildInfo} (hk : ¬(k = keyVersion)) (h : processStep bld k v = some b) :
    b.Version = bld.Version := by
  unfold processStep at h
  by_cases h1 : v = ""
  · rw [if_pos h1] at h; injection h with h; subst h; rfl
  · rw [if_neg h1] at h
    by_cases h2 : goTrim v = ""
    · rw [if_pos h2] at h; injection h with h; subst h; rfl
    · rw [if_neg h2] at h
      by_cases h3 : k = keyGoversion
      · rw [if_pos h3] at h; injection h with h; subst h; rfl
      · rw [if_neg h3, if_neg hk] at h
        by_cases h5 : k = keyRevision
        · rw [if_pos h5] at h; injection h with h; subst h; rfl
        · rw [if_neg h5] at h
          by_cases h6 : k = keyTime
          · rw [if_pos h6] at h
            rcases hpt : parseRFC3339 (goTrim v) with _ | t <;> rw [hpt] at h
            · cases h
            · injection h with h; subst h; rfl
          · rw [if_neg h6] at h; injection h with h; subst h; rfl

theorem processFields_version_unchanged :
    ∀ (fs : List (String × String)) (bld b : BuildInfo),
      keyVersion ∉ fs.map Prod.fst → processFields bld fs = some b →
      b.Version = bld.Version := by
  intro fs
  induction fs with
  | nil =>
    intro bld b _ h
    simp only [processFields] at h
    injection h with h
    subst h
    rfl
  | cons hd rest ih =>
    intro bld b hk h
    obtain ⟨k, v⟩ := hd
    simp only [List.map_cons, List.mem_cons, not_or] at hk
    simp only [processFields] at h
    rcases hstep : processStep bld k v with _ | b1 <;> rw [hstep] at h
    · cases h
    · have h2 : processFields b1 rest = some b := h
      rw [ih b1 b hk.2 h2]
      exact processStep_version_unchanged (fun hh => hk.1 hh.symm) hstep

theorem processStep_extra_lookup {bld : BuildInfo} {k v : String} {b : BuildInfo}
    (h : processStep bld k v = some b) (k1 : String) (hne : k1 ≠ k) :
    lookupAssoc b.Extra k1 = lookupAssoc bld.Extra k1 := by
  rcases processStep_extra h with he | ⟨_, he⟩
  · rw [he]
  · rw [he, lookupAssoc_update_other _ _ _ _ hne]

theorem processFields_extra_lookup :
    ∀ (fs : List (String × String)) (bld b : BuildInfo) (k : String),
      k ∉ fs.map Prod.fst → processFields bld fs = some b →
      lookupAssoc b.Extra k = lookupAssoc bld.Extra k := by
  intro fs
  induction fs with
  | nil =>
    intro bld b k _ h
    simp only [processFields] at h
    injection h with h
    subst h
    rfl
  | cons hd rest ih =>
    intro bld b k hk h
    obtain ⟨k0, v0⟩ := hd
    simp only [List.map_cons, List.mem_cons, not_or] at hk
    simp only [processFields] at h
    rcases hstep : processStep bld k0 v0 with _ | b1 <;> rw [hstep] at h
    · cases h
    · have h2 : processFields b1 rest = some b := h
      rw [ih b1 b k hk.2 h2]
      exact processStep_extra_lookup hstep k hk.1

theorem processFields_version_of_skip :
    ∀ (fs : List (String × String)) (bld b : BuildInfo) (v : String),
      NoDupKeys fs → (keyVersion, v) ∈ fs →
      (goTrim v = "" ∨ goTrim v = EmptyVersion) →
      processFields bld fs = some b → b.Version = bld.Version := by
  intro fs
  induction fs with
  | nil => intro bld b v _ hmem; cases hmem
  | cons hd rest ih =>
    intro bld b v hnd hmem hv h
    obtain ⟨k0, v0⟩ := hd
    simp only [NoDupKeys, List.map_cons, List.nodup_cons] at hnd
    simp only [processFields] at h
    rcases hstep : processStep bld k0 v0 with _ | b1 <;> rw [hstep] at h
    · cases h
    · have h2 : processFields b1 rest = some b := h
      rcases List.mem_cons.mp hmem with heq | hmem1
      · injection heq with hk hv0
        subst hk; subst hv0
        rw [processStep_version_skip bld v hv] at hstep
        injection hstep with hstep
        subst hstep
        exact processFields_version_unchanged rest _ b hnd.1 h2
      · have hk0 : ¬(k0 = keyVersion) := by
          intro hh; subst hh
          exact hnd.1 (List.mem_map.mpr ⟨(keyVersion, v), hmem1, rfl⟩)
        rw [ih b1 b v hnd.2 hmem1 hv h2]
        exact processStep_version_unchanged hk0 hstep

theorem processFields_version_of_store :
    ∀ (fs : List (String × String)) (bld b : BuildInfo) (v : String),
      NoDupKeys fs → (keyVersion, v) ∈ fs →
      goTrim v ≠ "" → goTrim v ≠ EmptyVersion →
      processFields bld fs = some b → b.Version = goTrim v := by
  intro fs
  induction fs with
  | nil => intro bld b v _ hmem; cases hmem
  | cons hd rest ih =>
    intro bld b v hnd hmem hv1 hv2 h
    obtain ⟨k0, v0⟩ := hd
    simp only [NoDupKeys, List.map_cons, List.nodup_cons] at hnd
    simp only [processFields] at h
    rcases hstep : processStep bld k0 v0 with _ | b1 <;> rw [hstep] at h
    · cases h
    · have h2 : processFields b1 rest = some b := h
      rcases List.mem_cons.mp hmem with heq | hmem1
      · injection heq with hk hv0
        subst hk; subst hv0
        rw [processStep_version_store bld v hv1 hv2] at hstep
        injection hstep with hstep
        subst hstep
        rw [processFields_version_unchanged rest _ b hnd.1 h2]
      · have hk0 : ¬(k0 = keyVersion) := by
          intro hh; subst hh
          exact hnd.1 (List.mem_map.mpr ⟨(keyVersion, v), hmem1, rfl⟩)
        exact ih b1 b v hnd.2 hmem1 hv1 hv2 h2

theorem processFields_extra_of_mem :
    ∀ (fs : List (String × String)) (bld b : BuildInfo) (k v : String),
      NoDupKeys fs → (k, v) ∈ fs → isReservedKey k = false → goTrim v ≠ "" →
      processFields bld fs = some b →
      lookupAssoc b.Extra k = some (goTrim v) := by
  intro fs
  induction fs with
  | nil => intro bld b k v _ hmem; cases hmem
  | cons hd rest ih =>
    intro bld b k v hnd hmem hres hv h
    obtain ⟨k0, v0⟩ := hd
    simp only [NoDupKeys, List.map_cons, List.nodup_cons] at hnd
    simp only [processFields] at h
    rcases hstep : processStep bld k0 v0 with _ | b1 <;> rw [hstep] at h
    · cases h
    · have h2 : processFields b1 rest = some b := h
      rcases List.mem_cons.mp hmem with heq | hmem1
      · injection heq with hk hv0
        subst hk; subst hv0
        rw [processStep_default bld k v hres hv] at hstep
        injection hstep with hstep
        subst hstep
        rw [processFields_extra_lookup rest _ b k hnd.1 h2]
        exact lookupAssoc_update_self _ _ _
      · exact ih b1 b k v hnd.2 hmem1 hres hv h2

theorem processFields_extra_of_skip :
    ∀ (fs : List (String × String)) (bld b : BuildInfo) (k v : String),
      NoDupKeys fs → (k, v) ∈ fs → goTrim v = "" →
      processFields bld fs = some b →
      lookupAssoc b.Extra k = lookupAssoc bld.Extra k := by
  intro fs
  induction fs with
  | nil => intro bld b k v _ hmem; cases hmem
  | cons hd rest ih =>
    intro bld b k v hnd hmem hv h
    obtain ⟨k0, v0⟩ := hd
    simp only [NoDupKeys, List.map_cons, List.nodup_cons] at hnd
    simp only [processFields] at h
    rcases hstep : processStep bld k0 v0 with _ | b1 <;> rw [hstep] at h
    · cases h
    · have h2 : processFields b1 rest = some b := h
      rcases List.mem_cons.mp hmem with heq | hmem1
      · injection heq with hk hv0
        subst hk; subst hv0
        rw [processStep_skip_empty bld k v hv] at hstep
        injection hstep with hstep
        subst hstep
        exact processFields_extra_lookup rest _ b k hnd.1 h2
      · have hne : k ≠ k0 := by
          intro hh; subst hh
          exact hnd.1 (List.mem_map.mpr ⟨(k, v), hmem1, rfl⟩)
        rw [ih b1 b k v hnd.2 hmem1 hv h2]
        exact processStep_extra_lookup hstep k hne

/-! ## Claim C10: `UnmarshalJSON` field handling -/

/-- C10 (amended): over the decoded member map of a successful
`UnmarshalJSON`, a version value that trims to empty or to the sentinel
`0.0.0` leaves `Version` unchanged; a version value whose trim is non-empty
and differs from the sentinel stores the trimmed value; and a non-reserved
key whose value trims non-empty is stored in `Extra` with surrounding
whitespace trimmed, while values trimming to empty are skipped. -/
theorem unmarshal_fields_spec (bld b : BuildInfo) (s : String)
    (fields : List (String × String)) (hp : parseStrMap s = some fields)
    (hrun : bld.UnmarshalJSON s = some b) :
    (∀ v, (keyVersion, v) ∈ dedupKeepLast fields →
      (goTrim v = "" ∨ goTrim v = EmptyVersion) → b.Version = bld.Version) ∧
    (∀ v, (keyVersion, v) ∈ dedupKeepLast fields →
      goTrim v ≠ "" → goTrim v ≠ EmptyVersion → b.Version = goTrim v) ∧
    (∀ k v, (k, v) ∈ dedupKeepLast fields → isReservedKey k = false →
      goTrim v ≠ "" → lookupAssoc b.Extra k = some (goTrim v)) ∧
    (∀ k v, (k, v) ∈ dedupKeepLast fields → goTrim v = "" →
      lookupAssoc b.Extra k = lookupAssoc bld.Extra k) := by
  have hnd := noDupKeys_dedupKeepLast fields
  have hproc : processFields bld (dedupKeepLast fields) = some b := by
    simp only [BuildInfo.UnmarshalJSON, hp] at hrun
    exact hrun
  exact ⟨fun v hm hv => processFields_version_of_skip _ _ _ _ hnd hm hv hproc,
    fun v hm h1 h2 => processFields_version_of_store _ _ _ _ hnd hm h1 h2 hproc,
    fun k v hm hres h1 => processFields_extra_of_mem _ _ _ _ _ hnd hm hres h1 hproc,
    fun k v hm hv => processFields_extra_of_skip _ _ _ _ _ hnd hm hv hproc⟩

/-- C10 counterexample: the version value `" 0.0.0 "` is neither the
sentinel, nor empty, nor whitespace-only, yet it is not stored — decoding
leaves a fresh record's version empty. -/
theorem unmarshal_version_trim_cex :
    (BuildInfo.UnmarshalJSON freshBuildInfo
        "\x7b\"version\":\" 0.0.0 \"\x7d").map BuildInfo.Version = some "" ∧
    (" 0.0.0 " : String) ≠ "" ∧
    (" 0.0.0 " : String) ≠ EmptyVersion ∧
    goTrim " 0.0.0 " ≠ "" ∧
    (BuildInfo.UnmarshalJSON freshBuildInfo
        "\x7b\"version\":\" 0.0.0 \"\x7d").map BuildInfo.Version ≠
      some " 0.0.0 " := by decide

/-- Witness for C10 on a concrete decode with a stored, a trimmed and a
skipped value. -/
theorem unmarshal_fields_spec_witness :
    BuildInfo.Version ⟨"", "v2", "", GoTime.zeroTime, [("foo", "bar")]⟩ =
      goTrim "v2" ∧
    lookupAssoc (BuildInfo.Extra ⟨"", "v2", "", GoTime.zeroTime, [("foo", "bar")]⟩)
      "foo" = some (goTrim " bar ") ∧
    lookupAssoc (BuildInfo.Extra ⟨"", "v2", "", GoTime.zeroTime, [("foo", "bar")]⟩)
      "ws" = lookupAssoc freshBuildInfo.Extra "ws" := by
  have hrun : BuildInfo.UnmarshalJSON freshBuildInfo
      "\x7b\"version\":\"v2\",\"foo\":\" bar \",\"ws\":\" \"\x7d" =
      some ⟨"", "v2", "", GoTime.zeroTime, [("foo", "bar")]⟩ := by decide
  have h := unmarshal_fields_spec freshBuildInfo
    ⟨"", "v2", "", GoTime.zeroTime, [("foo", "bar")]⟩
    "\x7b\"version\":\"v2\",\"foo\":\" bar \",\"ws\":\" \"\x7d"
    [("version", "v2"), ("foo", " bar "), ("ws", " ")] (by decide) hrun
  exact ⟨h.2.1 "v2" (by decide) (by decide) (by decide),
    h.2.2.1 "foo" " bar " (by decide) (by decide) (by decide),
    h.2.2.2 "ws" " " (by decide) (by decide)⟩

/-! ## Character facts about the formatted time and the emitted fields -/

theorem digCh_facts : ∀ d : Nat, d < 10 →
    goodChar (digCh d) = true ∧ isGoSpace (digCh d) = false := by decide

theorem pad2_facts {n : Nat} (h : n < 100) :
    ∀ c ∈ pad2 n, goodChar c = true ∧ isGoSpace c = false := by
  intro c hc
  simp only [pad2, List.mem_cons, List.not_mem_nil, or_false] at hc
  rcases hc with rfl | rfl
  · exact digCh_facts _ (by omega)
  · exact digCh_facts _ (by omega)

theorem pad4_facts {n : Nat} (h : n < 10000) :
    ∀ c ∈ pad4 n, goodChar c = true ∧ isGoSpace c = false := by
  intro c hc
  simp only [pad4, List.mem_cons, List.not_mem_nil, or_false] at hc
  rcases hc with rfl | rfl | rfl | rfl
  · exact digCh_facts _ (by omega)
  · exact digCh_facts _ (by omega)
  · exact digCh_facts _ (by omega)
  · exact digCh_facts _ (by omega)

theorem allP_append {P : Char → Prop} {l1 l2 : List Char}
    (h1 : ∀ c ∈ l1, P c) (h2 : ∀ c ∈ l2, P c) : ∀ c ∈ l1 ++ l2, P c := by
  intro c hc
  rcases List.mem_append.mp hc with h | h
  · exact h1 c h
  · exact h2 c h

theorem allP_cons {P : Char → Prop} {c0 : Char} {l : List Char} (h0 : P c0)
    (h : ∀ c ∈ l, P c) : ∀ c ∈ c0 :: l, P c := by
  intro c hc
  rcases List.mem_cons.mp hc with rfl | hc
  · exact h0
  · exact h c hc

theorem offChars_facts {off : Int} (hle : off.natAbs ≤ 86340) :
    ∀ c ∈ offChars off, goodChar c = true ∧ isGoSpace c = false := by
  unfold offChars
  by_cases h0 : off = 0
  · rw [if_pos h0]
    exact allP_cons (by decide) (by simp)
  · rw [if_neg h0]
    have ha : off.natAbs / 60 / 60 < 100 := by omega
    have hb : off.natAbs / 60 % 60 < 100 := by omega
    have hsign : goodChar (if off < 0 then '-' else '+') = true ∧
        isGoSpace (if off < 0 then '-' else '+') = false := by
      by_cases hneg : off < 0 <;> simp [hneg] <;> decide
    exact allP_append (allP_cons hsign (pad2_facts ha))
      (allP_cons (by decide) (pad2_facts hb))

theorem fmtChars_facts {t : GoTime} (h : t.Valid) :
    ∀ c ∈ fmtChars t, goodChar c = true ∧ isGoSpace c = false := by
  obtain ⟨h1, h2, h3, h4, h5, h6, h7, h8, h9, h10⟩ := h
  have hd31 : daysIn t.year t.month ≤ 31 := by
    unfold daysIn; split_ifs <;> simp
  unfold fmtChars
  exact allP_append (allP_append (allP_append (allP_append (allP_append
    (allP_append (pad4_facts (by omega))
      (allP_cons (by decide) (pad2_facts (by omega))))
      (allP_cons (by decide) (pad2_facts (by omega))))
      (allP_cons (by decide) (pad2_facts (by omega))))
      (allP_cons (by decide) (pad2_facts (by omega))))
      (allP_cons (by decide) (pad2_facts (by omega))))
    (offChars_facts h10)

theorem formatRFC3339_good {t : GoTime} (h : t.Valid) :
    goodStr (formatRFC3339 t) = true := by
  simp only [goodStr, formatRFC3339, List.all_eq_true]
  exact fun c hc => (fmtChars_facts h c hc).1

theorem goTrim_formatRFC3339 {t : GoTime} (h : t.Valid) :
    goTrim (formatRFC3339 t) = formatRFC3339 t :=
  goTrim_of_no_space (fun c hc => (fmtChars_facts h c hc).2)

theorem formatRFC3339_ne_empty (t : GoTime) : formatRFC3339 t ≠ "" := by
  intro hh
  have hd := congrArg String.data hh
  simp [formatRFC3339, fmtChars, pad4, data_nil] at hd

theorem isZero_eq {t : GoTime} (h : t.IsZero = true) : t = GoTime.zeroTime := by
  simpa [GoTime.IsZero] using h

theorem version_good {bld : BuildInfo} (hV : goodStr bld.Version = true) :
    goodStr bld.version = true := by
  unfold BuildInfo.version
  by_cases h : bld.Version = "" <;> simp [h, hV]
  decide

theorem jsonFields_good (bld : BuildInfo) (rt : String) (h : CanonicalRecord bld rt) :
    ∀ kv ∈ jsonFields bld rt, goodStr kv.1 = true ∧ goodStr kv.2 = true := by
  obtain ⟨hgov, hV, hVt, hVs, hR, hRt, hT, hnd, hx⟩ := h
  intro kv hm
  simp only [jsonFields, List.mem_cons, List.mem_append] at hm
  rcases hm with rfl | (hm | hm) | hm
  · exact ⟨show goodStr keyVersion = true by decide, version_good hV⟩
  · by_cases hr : bld.Revision = ""
    · rw [if_neg (not_not_intro hr)] at hm
      exact absurd hm (List.not_mem_nil kv)
    · rw [if_pos hr] at hm
      rw [List.mem_singleton.mp hm]
      exact ⟨show goodStr keyRevision = true by decide, hR⟩
  · by_cases ht : bld.Time.IsZero = true
    · rw [if_pos ht] at hm
      exact absurd hm (List.not_mem_nil kv)
    · rw [if_neg ht] at hm
      rw [List.mem_singleton.mp hm]
      rcases hT with hz | hval
      · exact absurd hz ht
      · exact ⟨show goodStr keyTime = true by decide, formatRFC3339_good hval⟩
  · rcases hm with rfl | hm
    · exact ⟨show goodStr keyGoversion = true by decide, hgov⟩
    · exact ⟨(hx kv hm).2.1, (hx kv hm).2.2.1⟩

theorem reserved_not_in_keys {e : List (String × String)} {k : String}
    (hres : ∀ kv ∈ e, isReservedKey kv.1 = false) (hk : isReservedKey k = true) :
    k ∉ e.map Prod.fst := by
  intro hm
  obtain ⟨kv, hkv, rfl⟩ := List.mem_map.mp hm
  rw [hres kv hkv] at hk
  cases hk

theorem nodup_key_chain {e : List (String × String)} (hnd : NoDupKeys e)
    (hres : ∀ kv ∈ e, isReservedKey kv.1 = false) {ks : List String}
    (hks : ks.Nodup) (hresk : ∀ k ∈ ks, isReservedKey k = true) :
    (ks ++ e.map Prod.fst).Nodup := by
  refine List.Nodup.append hks hnd ?_
  intro k hk1 hk2
  exact reserved_not_in_keys hres (hresk k hk1) hk2

theorem jsonFields_nodup (bld : BuildInfo) (rt : String) (hnd : NoDupKeys bld.Extra)
    (hres : ∀ kv ∈ bld.Extra, isReservedKey kv.1 = false) :
    NoDupKeys (jsonFields bld rt) := by
  unfold NoDupKeys
  by_cases hr : bld.Revision = "" <;> by_cases ht : bld.Time.IsZero = true
  · have hkeys : (jsonFields bld rt).map Prod.fst =
        [keyVersion, keyGoversion] ++ bld.Extra.map Prod.fst := by
      simp [jsonFields, hr, ht]
    rw [hkeys]
    exact nodup_key_chain hnd hres (by decide) (by decide)
  · have hkeys : (jsonFields bld rt).map Prod.fst =
        [keyVersion, keyTime, keyGoversion] ++ bld.Extra.map Prod.fst := by
      simp [jsonFields, hr, ht]
    rw [hkeys]
    exact nodup_key_chain hnd hres (by decide) (by decide)
  · have hkeys : (jsonFields bld rt).map Prod.fst =
        [keyVersion, keyRevision, keyGoversion] ++ bld.Extra.map Prod.fst := by
      simp [jsonFields, hr, ht]
    rw [hkeys]
    exact nodup_key_chain hnd hres (by decide) (by decide)
  · have hkeys : (jsonFields bld rt).map Prod.fst =
        [keyVersion, keyRevision, keyTime, keyGoversion] ++ bld.Extra.map Prod.fst := by
      simp [jsonFields, hr, ht]
    rw [hkeys]
    exact nodup_key_chain hnd hres (by decide) (by decide)

theorem processFields_cons_step {bld b1 : BuildInfo} {k v : String}
    (t : List (String × String)) (hs : processStep bld k v = some b1) :
    processFields bld ((k, v) :: t) = processFields b1 t := by
  simp [processFields, hs]

theorem processFields_extras_run :
    ∀ (e : List (String × String)) (bld : BuildInfo),
      (∀ kv ∈ e, isReservedKey kv.1 = false ∧ goTrim kv.2 = kv.2 ∧ kv.2 ≠ "") →
      NoDupKeys e →
      (∀ kv ∈ e, kv.1 ∉ bld.Extra.map Prod.fst) →
      processFields bld e = some { bld with Extra := bld.Extra ++ e } := by
  intro e
  induction e with
  | nil => intro bld _ _ _; simp [processFields]
  | cons hd t ih =>
    intro bld hgood hnd hdisj
    obtain ⟨k, v⟩ := hd
    obtain ⟨hres, htrim, hne⟩ := hgood (k, v) (by simp)
    simp only [NoDupKeys, List.map_cons, List.nodup_cons] at hnd
    have hvt : goTrim v ≠ "" := htrim.symm ▸ hne
    have hk : k ∉ bld.Extra.map Prod.fst := hdisj (k, v) (by simp)
    have hwe : bld.withExtra k (goTrim v) = { bld with Extra := bld.Extra ++ [(k, v)] } := by
      simp [BuildInfo.withExtra, updateAssoc_of_not_mem hk, htrim]
    rw [processFields_cons_step t (processStep_default bld k v hres hvt), hwe]
    rw [ih { bld with Extra := bld.Extra ++ [(k, v)] }
      (fun kv hkv => hgood kv (by simp [hkv]))
      hnd.2
      (by
        intro kv hkv
        simp only [List.map_append, List.mem_append, not_or]
        refine ⟨fun hh => hdisj kv (by simp [hkv]) hh, ?_⟩
        simp only [List.map_cons, List.map_nil, List.mem_singleton]
        intro hh
        exact hnd.1 (hh ▸ List.mem_map.mpr ⟨kv, hkv, rfl⟩))]
    simp

/-! ## Claim C1: JSON round trip -/

/-- C1 (amended): for every canonical record, encoding with `MarshalJSON`
and decoding the bytes with `UnmarshalJSON` into a fresh record recovers
the version, revision, time and extra fields; the toolchain-version field
is left for re-derivation. -/
theorem roundtrip_canonical (bld : BuildInfo) (rt : String)
    (h : CanonicalRecord bld rt) :
    freshBuildInfo.UnmarshalJSON (bld.MarshalJSON rt) =
      some ⟨"", bld.Version, bld.Revision, bld.Time, bld.Extra⟩ := by
  obtain ⟨hgov, hV, hVt, hVs, hR, hRt, hT, hnd, hx⟩ := h
  have hres : ∀ kv ∈ bld.Extra, isReservedKey kv.1 = false :=
    fun kv hkv => (hx kv hkv).1
  have hparse : parseStrMap (bld.MarshalJSON rt) = some (jsonFields bld rt) := by
    rw [BuildInfo.MarshalJSON, writeJson_eq_renderFields]
    exact parseStrMap_render _ (jsonFields_good bld rt
      ⟨hgov, hV, hVt, hVs, hR, hRt, hT, hnd, hx⟩)
  simp only [BuildInfo.UnmarshalJSON, hparse]
  rw [dedupKeepLast_eq_self _ (jsonFields_nodup bld rt hnd hres)]
  have hstep1 : processStep freshBuildInfo keyVersion bld.version =
      some ⟨"", bld.Version, "", GoTime.zeroTime, []⟩ := by
    by_cases hVe : bld.Version = ""
    · rw [show bld.version = EmptyVersion by simp [BuildInfo.version, hVe]]
      rw [processStep_version_skip _ _ (Or.inr (by decide)), hVe]
      rfl
    · rw [show bld.version = bld.Version by simp [BuildInfo.version, hVe]]
      rw [processStep_version_store _ _ (by rw [hVt]; exact hVe)
        (by rw [hVt]; exact hVs), hVt]
      rfl
  have hextras : ∀ b : BuildInfo, b.Extra = [] →
      processFields b bld.Extra = some { b with Extra := bld.Extra } := by
    intro b hb
    have hrun := processFields_extras_run bld.Extra b
      (fun kv hkv => ⟨(hx kv hkv).1, (hx kv hkv).2.2.2.1, (hx kv hkv).2.2.2.2⟩)
      hnd (by simp [hb])
    rw [hrun, hb]
    simp
  have hgovtail : ∀ b : BuildInfo, b.Extra = [] →
      processFields b ((keyGoversion, bld.GoVersion rt) :: bld.Extra) =
        some { b with Extra := bld.Extra } := by
    intro b hb
    rw [processFields_cons_step _ (processStep_skip_goversion b (bld.GoVersion rt))]
    exact hextras b hb
  unfold jsonFields
  rw [processFields_cons_step _ hstep1]
  by_cases hr : bld.Revision = "" <;> by_cases ht : bld.Time.IsZero = true
  · have hz := isZero_eq ht
    simp only [hr, ht, Bool.false_eq_true, ite_true, ite_false, ne_eq, not_true,
      not_false_iff, if_true, if_false, List.nil_append, List.append_nil]
    rw [hgovtail _ rfl, hz]
  · replace hT : bld.Time.Valid := by
      rcases hT with hz | hval
      · exact absurd hz ht
      · exact hval
    have hfmt : goTrim (formatRFC3339 bld.Time) = formatRFC3339 bld.Time :=
      goTrim_formatRFC3339 hT
    have hstepT : processStep (⟨"", bld.Version, "", GoTime.zeroTime, []⟩ : BuildInfo)
        keyTime (formatRFC3339 bld.Time) =
        some ⟨"", bld.Version, "", bld.Time, []⟩ := by
      rw [processStep_time _ _ bld.Time
        (by rw [hfmt]; exact formatRFC3339_ne_empty bld.Time)
        (by rw [hfmt]; exact parseTimeChars_fmt bld.Time hT)]
    simp only [hr, ht, Bool.false_eq_true, ite_true, ite_false, ne_eq, not_true,
      not_false_iff, if_true, if_false, List.nil_append, List.append_nil, List.cons_append,
      List.singleton_append]
    rw [processFields_cons_step _ hstepT, hgovtail _ rfl]
  · have hz := isZero_eq ht
    have hstepR : processStep (⟨"", bld.Version, "", GoTime.zeroTime, []⟩ : BuildInfo)
        keyRevision bld.Revision =
        some ⟨"", bld.Version, bld.Revision, GoTime.zeroTime, []⟩ := by
      rw [processStep_revision _ _ (by rw [hRt]; exact hr), hRt]
    simp only [hr, ht, Bool.false_eq_true, ite_true, ite_false, ne_eq, not_true,
      not_false_iff, if_true, if_false, List.nil_append, List.append_nil, List.cons_append,
      List.singleton_append]
    rw [processFields_cons_step _ hstepR, hgovtail _ rfl, hz]
  · replace hT : bld.Time.Valid := by
      rcases hT with hz | hval
      · exact absurd hz ht
      · exact hval
    have hfmt : goTrim (formatRFC3339 bld.Time) = formatRFC3339 bld.Time :=
      goTrim_formatRFC3339 hT
    have hstepR : processStep (⟨"", bld.Version, "", GoTime.zeroTime, []⟩ : BuildInfo)
        keyRevision bld.Revision =
        some ⟨"", bld.Version, bld.Revision, GoTime.zeroTime, []⟩ := by
      rw [processStep_revision _ _ (by rw [hRt]; exact hr), hRt]
    have hstepT : processStep
        (⟨"", bld.Version, bld.Revision, GoTime.zeroTime, []⟩ : BuildInfo)
        keyTime (formatRFC3339 bld.Time) =
        some ⟨"", bld.Version, bld.Revision, bld.Time, []⟩ := by
      rw [processStep_time _ _ bld.Time
        (by rw [hfmt]; exact formatRFC3339_ne_empty bld.Time)
        (by rw [hfmt]; exact parseTimeChars_fmt bld.Time hT)]
    simp only [hr, ht, Bool.false_eq_true, ite_true, ite_false, ne_eq, not_true,
      not_false_iff, if_true, if_false, List.nil_append, List.append_nil, List.cons_append,
      List.singleton_append]
    rw [processFields_cons_step _ hstepR, processFields_cons_step _ hstepT,
      hgovtail _ rfl]

/-- C1 counterexample: a record whose stored version is the sentinel
`0.0.0` round-trips to a record with an empty version — the encoder emits
the sentinel and the decoder refuses to store it. -/
theorem roundtrip_claim_cex :
    BuildInfo.UnmarshalJSON freshBuildInfo
        (BuildInfo.MarshalJSON { Version := "0.0.0" } "go1") = some freshBuildInfo ∧
    ({ Version := "0.0.0" } : BuildInfo).Version ≠ freshBuildInfo.Version := by
  decide

/-- Witness for C1 on a concrete canonical record. -/
theorem roundtrip_canonical_witness :
    CanonicalRecord
      ⟨"", "v1.0.66", "fedcba", ⟨2020, 6, 16, 19, 53, 0, 0⟩, [("foo", "bar")]⟩
      "go1.21.0" ∧
    BuildInfo.UnmarshalJSON freshBuildInfo
        (BuildInfo.MarshalJSON
          ⟨"", "v1.0.66", "fedcba", ⟨2020, 6, 16, 19, 53, 0, 0⟩, [("foo", "bar")]⟩
          "go1.21.0") =
      some ⟨"", "v1.0.66", "fedcba", ⟨2020, 6, 16, 19, 53, 0, 0⟩, [("foo", "bar")]⟩ :=
  ⟨by decide, roundtrip_canonical _ _ (by decide)⟩
